import Mathlib

/-!
Verification of the tabular aggregation-and-reporting pipeline of
`src/data.py` (load → validate columns → aggregate → render request →
persist), against its natural-language specification.

The Python program operates on pandas DataFrames.  We embed the pipeline
shallowly:

* a `Table` is an ordered list of column names plus row-major cells
  (`Cell` = string, integer, missing marker `na`, datetime, or
  year-month period — the latter two arise only inside the temporal
  aggregation, mirroring `pd.to_datetime` / `.dt.to_period("M")`);
* `df.groupby(k)[v].sum()` is `groupbySum`: rows whose key is the
  missing marker are dropped (pandas `dropna=True` default), remaining
  keys are deduplicated and emitted in ascending key order
  (`sort=True` default), and the measure is summed per key with missing
  values contributing nothing (`skipna`);
* `sort_values(ascending=False)` is modelled after pandas'
  `nargsort`: an ascending argsort of the values followed by a
  reversal (we take the argsort to be stable, which is what numpy's
  sort does on the small arrays this program produces);
* process-terminating failures (`sys.exit`, an uncaught
  `pd.to_datetime` parse error) are `Except.error`;
* the filesystem is a finite association list from path strings to
  tables; `pathlib.Path.with_stem` is modelled on raw path strings
  with pathlib's stem/suffix splitting rules.

Numeric cells are embedded as integers: every claim about sums is
stated for integer-valued numeric columns, where pandas float
arithmetic is exact.
-/

instance {ε α : Type} [DecidableEq ε] [DecidableEq α] : DecidableEq (Except ε α) := fun a b =>
  match a, b with
  | .error e1, .error e2 =>
    if h : e1 = e2 then .isTrue (by rw [h]) else .isFalse (fun hc => h (Except.error.inj hc))
  | .error _, .ok _ => .isFalse (fun hc => Except.noConfusion hc)
  | .ok _, .error _ => .isFalse (fun hc => Except.noConfusion hc)
  | .ok a1, .ok a2 =>
    if h : a1 = a2 then .isTrue (by rw [h]) else .isFalse (fun hc => h (Except.ok.inj hc))

/-- Calendar date, as produced by `pd.to_datetime` on an ISO date
string. -/
structure Date where
  year : Nat
  month : Nat
  day : Nat
deriving DecidableEq, Repr

/-- One cell of a DataFrame: a string, an integer, the missing-value
marker (NaN/NaT), a datetime value, or a year-month period.  The last
two appear only in the columns created inside `monthly_sales_trend`. -/
inductive Cell where
  | str : String → Cell
  | num : Int → Cell
  | na : Cell
  | date : Date → Cell
  | period : Nat → Nat → Cell
deriving DecidableEq, Repr

/-- A DataFrame: ordered column names and row-major cells.  The
intended invariant (every row has one cell per column) is `Table.Wf`
below. -/
structure Table where
  cols : List String
  rows : List (List Cell)
deriving DecidableEq, Repr

/-- Spec invariant on tables: every row has the same column set. -/
def Table.Wf (t : Table) : Prop := ∀ r ∈ t.rows, r.length = t.cols.length

instance (t : Table) : Decidable t.Wf := by
  unfold Table.Wf
  infer_instance

/-! ### Character-level string helpers

`String.ltb` does not reduce in the kernel, so the code-point
lexicographic order used by pandas when sorting string group keys is
defined directly on the character lists. -/

/-- Lexicographic (code-point) comparison of character lists, the order
pandas uses for string group keys. -/
def charsLe : List Char → List Char → Bool
  | [], _ => true
  | _ :: _, [] => false
  | a :: as, b :: bs =>
    if a.toNat < b.toNat then true
    else if b.toNat < a.toNat then false
    else charsLe as bs

/-- Lexicographic order on strings via their character data. -/
def strLe (s u : String) : Bool := charsLe s.data u.data

/-- Numeric value of a digit string, `none` if empty or non-digit. -/
def digitsVal? (cs : List Char) : Option Nat :=
  if cs ≠ [] ∧ cs.all Char.isDigit then
    some (cs.foldl (fun a c => a * 10 + (c.toNat - 48)) 0)
  else none

/-- Split a character list at its last `'.'`: `some (pre, suf)` with
`suf` starting at that dot, `none` if no dot occurs. -/
def lastDotSplit : List Char → Option (List Char × List Char)
  | [] => none
  | c :: rest =>
    match lastDotSplit rest with
    | some (pre, suf) => some (c :: pre, suf)
    | none => if c = '.' then some ([], c :: rest) else none

/-- Split a character list at each `'-'` (the shape accepted for ISO
dates). -/
def dashSplit : List Char → List (List Char)
  | [] => [[]]
  | c :: rest =>
    match dashSplit rest with
    | [] => if c = '-' then [[], []] else [[c]]
    | g :: gs => if c = '-' then [] :: g :: gs else (c :: g) :: gs

/-- Date parsing as performed by `pd.to_datetime` on the string cells
of the `Date` column, restricted to the ISO `YYYY-MM-DD` shape the
program's input files use; anything else is a parse failure. -/
def parseDate (s : String) : Option Date :=
  match dashSplit s.data with
  | [y, m, d] =>
    match digitsVal? y, digitsVal? m, digitsVal? d with
    | some yn, some mn, some dn =>
      if 1 ≤ mn ∧ mn ≤ 12 ∧ 1 ≤ dn ∧ dn ≤ 31 then some ⟨yn, mn, dn⟩
      else none
    | _, _, _ => none
  | _ => none

/-! ### Ordering and rendering of cells -/

/-- Rank used to compare cells of different constructors (group keys of
one column always share a constructor, so only the within-constructor
cases below are ever exercised by the pipeline). -/
def cellRank : Cell → Nat
  | .na => 0
  | .num _ => 1
  | .str _ => 2
  | .date _ => 3
  | .period _ _ => 4

/-- Chronological order on dates. -/
def dateLe (a b : Date) : Bool :=
  decide (a.year < b.year ∨ (a.year = b.year ∧
    (a.month < b.month ∨ (a.month = b.month ∧ a.day ≤ b.day))))

/-- Total order on cells: integers by value, strings lexicographically,
datetimes and periods chronologically, distinct constructors by rank.
This is the key order of a sorted `groupby`. -/
def cellLe : Cell → Cell → Bool
  | .num i, .num j => decide (i ≤ j)
  | .str s, .str u => strLe s u
  | .date a, .date b => dateLe a b
  | .period y1 m1, .period y2 m2 =>
    decide (y1 < y2 ∨ (y1 = y2 ∧ m1 ≤ m2))
  | a, b => decide (cellRank a ≤ cellRank b)

/-- Numeric value of a cell: the summand it contributes to a pandas
`sum` over a numeric column (missing values contribute nothing). -/
def cellVal : Cell → Int
  | .num i => i
  | _ => 0

/-- A cell of a numeric (integer-or-missing) column. -/
def isNumCell : Cell → Bool
  | .num _ => true
  | .na => true
  | _ => false

/-- Textual rendering of a cell, as `DataFrame.to_csv` writes it
(missing values become empty fields). -/
def cellStr : Cell → String
  | .str s => s
  | .num i => toString i
  | .na => ""
  | .date d => toString d.year ++ "-" ++ toString d.month ++ "-" ++ toString d.day
  | .period y m => toString y ++ "-" ++ toString m

/-! ### Column access and assignment -/

/-- Value of row `r` at the first column named `c` (missing marker if
the name is absent or the row is too short). -/
def lookupRow : List String → List Cell → String → Cell
  | [], _, _ => .na
  | _ :: _, [], _ => .na
  | c' :: cs, x :: xs, c => if c' = c then x else lookupRow cs xs c

/-- Row `r` with the cell of the first column named `c` replaced by
`v`; unchanged if `c` is absent. -/
def setRow : List String → List Cell → String → Cell → List Cell
  | [], r, _, _ => r
  | _ :: _, [], _, _ => []
  | c' :: cs, x :: xs, c, v => if c' = c then v :: xs else x :: setRow cs xs c v

/-- The column named `c`, as the list of its per-row values
(`df[c]`). -/
def Table.col (t : Table) (c : String) : List Cell :=
  t.rows.map (fun r => lookupRow t.cols r c)

/-- `df.copy()`. -/
def Table.copy (t : Table) : Table := ⟨t.cols, t.rows⟩

/-- Column assignment `df[c] = vs`: overwrite the column if present,
append a new one otherwise (pandas `__setitem__`). -/
def Table.setCol (t : Table) (c : String) (vs : List Cell) : Table :=
  if c ∈ t.cols then
    ⟨t.cols, (t.rows.zip vs).map (fun p => setRow t.cols p.1 c p.2)⟩
  else
    ⟨t.cols ++ [c], (t.rows.zip vs).map (fun p => p.1 ++ [p.2])⟩

/-! ### Sorting

Pandas sorts with numpy.  We use a stable insertion sort, which agrees
with the sorted `groupby` key order (keys are distinct, so stability is
irrelevant there) and with numpy's behaviour on the small value arrays
`sort_values` sees in this program. -/

/-- Insert `x` into `l` before the first element it `le`-precedes
(stable insertion). -/
def insertLe {α : Type} (le : α → α → Bool) (x : α) : List α → List α
  | [] => [x]
  | y :: ys => if le x y then x :: y :: ys else y :: insertLe le x ys

/-- Stable insertion sort by the boolean relation `le`. -/
def sortByLe {α : Type} (le : α → α → Bool) : List α → List α
  | [] => []
  | x :: xs => insertLe le x (sortByLe le xs)

/-! ### Grouping -/

/-- Sum of the measure over the pairs whose key is `k` (a pandas
per-group `sum`, skipping missing values). -/
def sumFor (ps : List (Cell × Cell)) (k : Cell) : Int :=
  ((ps.filter (fun p => decide (p.1 = k))).map (fun p => cellVal p.2)).sum

/-- The distinct non-missing keys of the key/measure pairs: pandas
`groupby` drops rows whose key is missing. -/
def groupKeys (ps : List (Cell × Cell)) : List Cell :=
  ((ps.map Prod.fst).filter (fun c => decide (c ≠ Cell.na))).dedup

/-- `df.groupby(key)[measure].sum()` over the zipped key/measure pairs:
one entry per distinct non-missing key, keys ascending (`sort=True`),
measure summed per key. -/
def groupbySum (ps : List (Cell × Cell)) : List (Cell × Int) :=
  (sortByLe cellLe (groupKeys ps)).map (fun k => (k, sumFor ps k))

/-! ### The two aggregation variants -/

/-- Comparison by summed value, the ascending argsort key of
`sort_values`. -/
def valLe (a b : Cell × Int) : Bool := decide (a.2 ≤ b.2)

/-- Variant A, `sales_by_product` (src/data.py:46-55): if both
`Product` and `Sales` columns exist, group by product, sum sales,
sort by summed value descending (modelled as reversing a stable
ascending sort, after pandas' `nargsort`), and hand the result to the
renderer; otherwise do nothing.  The first component is the caller's
`df` after the call (the function never assigns to it); the second is
the rendered aggregation, `none` when the variant was skipped. -/
def sales_by_product (t : Table) : Table × Option (List (Cell × Int)) :=
  if "Product" ∈ t.cols ∧ "Sales" ∈ t.cols then
    let agg := groupbySum ((t.col "Product").zip (t.col "Sales"))
    let sorted := (sortByLe valLe agg).reverse
    (t, some sorted)
  else (t, none)

/-- `pd.to_datetime` on one cell of the `Date` column: missing stays
missing (NaT), a string must parse as a date, anything else is a
conversion failure.  (Integer cells would be read by pandas as epoch
offsets; no claim exercises that case, so they are modelled as
failures.) -/
def toDatetimeCell : Cell → Except String Cell
  | .na => .ok .na
  | .str s =>
    match parseDate s with
    | some d => .ok (.date d)
    | none => .error ("Unknown datetime string format: " ++ s)
  | .date d => .ok (.date d)
  | c => .error ("cannot convert to datetime: " ++ cellStr c)

/-- Whether a cell converts to an actual datetime (not NaT): the
"parseable date" precondition of the temporal aggregation. -/
def parsesToDate (c : Cell) : Bool :=
  match toDatetimeCell c with
  | .ok (.date _) => true
  | _ => false

/-- `.dt.to_period("M")` on one cell of the converted `Date` column:
truncate a datetime to its year-month, keep NaT missing. -/
def toPeriodCell : Cell → Cell
  | .date d => .period d.year d.month
  | _ => .na

/-- Map a fallible function over a list, propagating the first
failure — the behaviour of a raising pandas conversion applied to a
whole column. -/
def mapExcept {α β : Type} (f : α → Except String β) : List α → Except String (List β)
  | [] => .ok []
  | x :: xs =>
    match f x with
    | .error e => .error e
    | .ok b =>
      match mapExcept f xs with
      | .error e => .error e
      | .ok bs => .ok (b :: bs)

/-- Variant B, `monthly_sales_trend` (src/data.py:58-69): if both
`Date` and `Sales` columns exist, convert the `Date` column of a copy
to datetimes (raising on the first unparseable value), add a `Month`
column of year-month periods, group by month and sum sales (ascending
month order), and hand the result to the renderer; otherwise do
nothing.  First component: the caller's `df` after the call (the
function mutates only its copy).  Second: `Except.error` when the date
conversion raised, `.ok none` when skipped, `.ok (some trend)` when
rendered. -/
def monthly_sales_trend (t : Table) : Table × Except String (Option (List (Cell × Int))) :=
  if "Date" ∈ t.cols ∧ "Sales" ∈ t.cols then
    match mapExcept toDatetimeCell (t.copy.col "Date") with
    | .error e => (t, .error e)
    | .ok dates =>
      let df1 := t.copy.setCol "Date" dates
      let months := (df1.col "Date").map toPeriodCell
      let df2 := df1.setCol "Month" months
      let trend := groupbySum ((df2.col "Month").zip (df2.col "Sales"))
      (t, .ok (some trend))
  else (t, .ok none)

/-! ### Writer and entry point -/

/-- `DataFrame.to_csv(..., index=False)`: the header row followed by
the rendered data rows, with no synthetic index column. -/
def to_csv (t : Table) : List (List String) :=
  t.cols :: t.rows.map (fun r => r.map cellStr)

/-- Directory part of a path string, up to and including the last
slash. -/
def pathDir (p : String) : String :=
  ⟨(p.data.reverse.dropWhile (fun c => decide (c ≠ '/'))).reverse⟩

/-- Final component of a path string. -/
def pathName (p : String) : String :=
  ⟨(p.data.reverse.takeWhile (fun c => decide (c ≠ '/'))).reverse⟩

/-- Pathlib's stem/suffix split of a file name: the suffix starts at
the last dot, unless that dot is the first or last character of the
name (then the suffix is empty). -/
def splitStemExt (name : List Char) : List Char × List Char :=
  match lastDotSplit name with
  | some (pre, suf) => if pre ≠ [] ∧ 2 ≤ suf.length then (pre, suf) else (name, [])
  | none => (name, [])

/-- `Path.stem`. -/
def pathStem (p : String) : String := ⟨(splitStemExt (pathName p).data).1⟩

/-- `Path.suffix`. -/
def pathSuffix (p : String) : String := ⟨(splitStemExt (pathName p).data).2⟩

/-- `Path.with_stem(s)`: same directory, new stem, original suffix. -/
def with_stem (p s : String) : String := pathDir p ++ s ++ pathSuffix p

/-- Output path derivation of `main` (src/data.py:87):
`csv_path.with_stem(csv_path.stem + "_cleaned")`. -/
def out_path (p : String) : String := with_stem p (pathStem p ++ "_cleaned")

/-- The modelled filesystem: finitely many paths holding loaded
tables. -/
def FS : Type := List (String × Table)

/-- `load_csv` (src/data.py:12-18): return the table at `path`, or
terminate the process with a message naming the missing path. -/
def load_csv (fs : FS) (p : String) : Except String Table :=
  match List.lookup p fs with
  | some df => .ok df
  | none => .error ("File not found: " ++ p)

/-- The post-load pipeline of `main` (src/data.py:83-89) on a loaded
table: run both aggregation variants (the profiler only prints and is
omitted), then serialize the final `df`.  `Except.error` when a stage
terminated the process; otherwise the table that reached the writer
and the CSV text written. -/
def run_pipeline (t : Table) : Except String (Table × List (List String)) :=
  match monthly_sales_trend (sales_by_product t).1 with
  | (_, .error e) => .error e
  | (df2, .ok _) => .ok (df2, to_csv df2)

/-- A whole run of `main` with a `--file` argument: load, pipeline,
write; the result is the output path and its contents, or the
diagnostic of the terminating failure. -/
def run (fs : FS) (p : String) : Except String (String × List (List String)) :=
  match load_csv fs p with
  | .error e => .error e
  | .ok df =>
    match run_pipeline df with
    | .error e => .error e
    | .ok (_, csv) => .ok (out_path p, csv)


/-! ### Concrete tables used to instantiate the theorems -/

/-- A table with neither aggregation's columns: the pipeline only
loads, profiles and writes it. -/
def tPlain : Table := ⟨["X"], [[.str "A"]]⟩

/-- The spec's worked example for the categorical aggregation. -/
def tSales : Table :=
  ⟨["Product", "Sales"], [[.str "A", .num 10], [.str "B", .num 5], [.str "A", .num 3]]⟩

/-- The spec's worked example for the temporal aggregation. -/
def tDates : Table :=
  ⟨["Date", "Sales"],
   [[.str "2023-01-05", .num 10], [.str "2023-01-20", .num 5], [.str "2023-02-01", .num 7]]⟩

/-- A table whose single row has a missing `Product` but positive
`Sales`. -/
def tNaProduct : Table := ⟨["Product", "Sales"], [[.na, .num 10]]⟩

/-- Three products with tied sales, first encountered in the order
B, A, C. -/
def tTiedSales : Table :=
  ⟨["Product", "Sales"], [[.str "B", .num 5], [.str "A", .num 5], [.str "C", .num 5]]⟩

/-- A table whose `Date` column holds an unparseable value. -/
def tBadDate : Table := ⟨["Date", "Sales"], [[.str "bad", .num 1]]⟩

/-- A table with a `Sales` column only. -/
def tOnlySales : Table := ⟨["Sales"], [[.num 1]]⟩

/-- Lower-case variants of the recognized column names. -/
def tLowerProduct : Table := ⟨["product", "sales"], [[.str "A", .num 1]]⟩

/-- Lower-case variants of the temporal column names. -/
def tLowerDate : Table := ⟨["date", "sales"], [[.str "2023-01-05", .num 2]]⟩

/-! ### Sorting lemmas -/

theorem insertLe_perm {α : Type} (le : α → α → Bool) (x : α) :
    ∀ l : List α, (insertLe le x l).Perm (x :: l)
  | [] => List.Perm.refl _
  | y :: ys => by
    unfold insertLe
    by_cases h : le x y = true
    · rw [if_pos h]
    · rw [if_neg h]
      exact ((insertLe_perm le x ys).cons y).trans (List.Perm.swap x y ys)

theorem sortByLe_perm {α : Type} (le : α → α → Bool) :
    ∀ l : List α, (sortByLe le l).Perm l
  | [] => List.Perm.refl _
  | x :: xs => (insertLe_perm le x (sortByLe le xs)).trans ((sortByLe_perm le xs).cons x)

theorem pairwise_trivial {α : Type} : ∀ l : List α, l.Pairwise (fun _ _ => True)
  | [] => .nil
  | _ :: xs => .cons (fun _ _ => trivial) (pairwise_trivial xs)

theorem pairwise_insertLe {α : Type} (le : α → α → Bool) (R Q : α → α → Prop) (x : α)
    (h1 : ∀ y, Q x y → le x y = true → R x y)
    (h2 : ∀ y, Q x y → le x y = false → R y x)
    (h3 : ∀ y z, Q x y → Q x z → le x y = true → R y z → R x z) :
    ∀ l : List α, l.Pairwise R → (∀ y ∈ l, Q x y) → (insertLe le x l).Pairwise R
  | [], _, _ => List.Pairwise.cons (by simp) .nil
  | y :: ys, hl, hQ => by
    rcases hl with - | ⟨hy, hys⟩
    unfold insertLe
    by_cases h : le x y = true
    · rw [if_pos h]
      refine .cons ?_ (.cons hy hys)
      intro w hw
      rcases List.mem_cons.mp hw with rfl | hwys
      · exact h1 w (hQ w (by simp)) h
      · exact h3 y w (hQ y (by simp)) (hQ w (by simp [hwys])) h (hy w hwys)
    · rw [if_neg h]
      refine .cons ?_ (pairwise_insertLe le R Q x h1 h2 h3 ys hys
        (fun z hz => hQ z (by simp [hz])))
      intro w hw
      rcases List.mem_cons.mp ((insertLe_perm le x ys).mem_iff.mp hw) with rfl | hwys
      · exact h2 y (hQ y (by simp)) (by simpa using h)
      · exact hy w hwys

theorem pairwise_sortByLe {α : Type} (le : α → α → Bool) (R Q : α → α → Prop)
    (h1 : ∀ x y, Q x y → le x y = true → R x y)
    (h2 : ∀ x y, Q x y → le x y = false → R y x)
    (h3 : ∀ x y z, Q x y → Q x z → le x y = true → R y z → R x z) :
    ∀ l : List α, l.Pairwise Q → (sortByLe le l).Pairwise R
  | [], _ => .nil
  | x :: xs, hl => by
    rcases hl with - | ⟨hx, hxs⟩
    exact pairwise_insertLe le R Q x (h1 x) (h2 x) (h3 x) (sortByLe le xs)
      (pairwise_sortByLe le R Q h1 h2 h3 xs hxs)
      (fun y hy => hx y ((sortByLe_perm le xs).mem_iff.mp hy))

theorem sorted_sortByLe {α : Type} (le : α → α → Bool)
    (htot : ∀ a b, le a b = true ∨ le b a = true)
    (htrans : ∀ a b c, le a b = true → le b c = true → le a c = true)
    (l : List α) : (sortByLe le l).Pairwise (fun a b => le a b = true) :=
  pairwise_sortByLe le _ (fun _ _ => True)
    (fun _ _ _ h => h)
    (fun x y _ h => (htot x y).resolve_left (by simp [h]))
    (fun x y z _ _ hxy hyz => htrans x y z hxy hyz)
    l (pairwise_trivial l)

/-! ### The cell order is total and transitive -/

theorem charsLe_total : ∀ as bs : List Char, charsLe as bs = true ∨ charsLe bs as = true
  | [], _ => .inl rfl
  | _ :: _, [] => .inr rfl
  | a :: as, b :: bs => by
    unfold charsLe
    rcases Nat.lt_trichotomy a.toNat b.toNat with h | h | h
    · left; simp [h]
    · simpa [h, Nat.lt_irrefl] using charsLe_total as bs
    · right; simp [h, Nat.lt_asymm h]

theorem charsLe_trans : ∀ as bs cs : List Char,
    charsLe as bs = true → charsLe bs cs = true → charsLe as cs = true
  | [], _, _ => by intro _ _; rfl
  | _ :: _, [], _ => by intro h _; simp [charsLe] at h
  | _ :: _, _ :: _, [] => by intro _ h; simp [charsLe] at h
  | a :: as, b :: bs, c :: cs => by
    unfold charsLe
    split_ifs <;> intro h1 h2 <;>
      first
        | rfl
        | omega
        | exact charsLe_trans as bs cs h1 h2
        | simp_all

theorem cellLe_total : ∀ a b : Cell, cellLe a b = true ∨ cellLe b a = true := by
  intro a b
  cases a <;> cases b <;>
    simp only [cellLe, cellRank, strLe, dateLe, decide_eq_true_eq] <;>
    first
      | omega
      | exact charsLe_total _ _

theorem cellLe_trans : ∀ a b c : Cell,
    cellLe a b = true → cellLe b c = true → cellLe a c = true := by
  intro a b c
  cases a <;> cases b <;> cases c <;>
    simp only [cellLe, cellRank, strLe, dateLe, decide_eq_true_eq] <;>
    first
      | omega
      | exact charsLe_trans _ _ _

/-! ### Sum-partition lemmas for grouping -/

theorem sum_filter_or {α : Type} (f : α → Int) (q r : α → Bool)
    (hdisj : ∀ a, ¬(q a = true ∧ r a = true)) :
    ∀ l : List α,
      ((l.filter (fun a => q a || r a)).map f).sum
        = ((l.filter q).map f).sum + ((l.filter r).map f).sum
  | [] => by simp
  | x :: l => by
    have ih := sum_filter_or f q r hdisj l
    by_cases hq : q x = true
    · have hr : r x = false := Bool.eq_false_iff.mpr (fun h => hdisj x ⟨hq, h⟩)
      simp only [List.filter_cons, hq, hr, Bool.true_or, if_pos, if_neg, Bool.false_eq_true,
        ite_true, ite_false, List.map_cons, List.sum_cons, ih]
      ring
    · have hq' : q x = false := Bool.eq_false_iff.mpr hq
      by_cases hr : r x = true
      · simp only [List.filter_cons, hq', hr, Bool.false_or, Bool.false_eq_true,
          ite_true, ite_false, List.map_cons, List.sum_cons, ih]
        ring
      · have hr' : r x = false := Bool.eq_false_iff.mpr hr
        simp only [List.filter_cons, hq', hr', Bool.false_or, Bool.false_eq_true,
          ite_false, ih]

theorem sum_over_keys (ps : List (Cell × Cell)) :
    ∀ ks : List Cell, ks.Nodup →
      ((ks.map (sumFor ps)).sum)
        = ((ps.filter (fun p => decide (p.1 ∈ ks))).map (fun p => cellVal p.2)).sum
  | [], _ => by simp
  | k :: ks, hnd => by
    have hk : k ∉ ks := (List.nodup_cons.mp hnd).1
    have ih := sum_over_keys ps ks (List.nodup_cons.mp hnd).2
    have hdisj : ∀ p : Cell × Cell,
        ¬(decide (p.1 = k) = true ∧ decide (p.1 ∈ ks) = true) := by
      intro p ⟨h1, h2⟩
      exact hk ((of_decide_eq_true h1) ▸ of_decide_eq_true h2)
    have hcong : ps.filter (fun p => decide (p.1 ∈ k :: ks))
        = ps.filter (fun p => decide (p.1 = k) || decide (p.1 ∈ ks)) := by
      apply List.filter_congr
      intro p _
      simp [List.mem_cons]
    rw [List.map_cons, List.sum_cons, hcong, sum_filter_or _ _ _ hdisj ps, ih]
    rfl

theorem groupKeys_nodup (ps : List (Cell × Cell)) : (groupKeys ps).Nodup :=
  List.nodup_dedup _

theorem mem_groupKeys {ps : List (Cell × Cell)} {k : Cell} :
    k ∈ groupKeys ps ↔ k ∈ ps.map Prod.fst ∧ k ≠ Cell.na := by
  simp [groupKeys, List.mem_dedup, List.mem_filter]

theorem sum_groupbySum (ps : List (Cell × Cell)) :
    ((groupbySum ps).map Prod.snd).sum
      = ((ps.filter (fun p => decide (p.1 ≠ Cell.na))).map (fun p => cellVal p.2)).sum := by
  unfold groupbySum
  rw [List.map_map]
  have hcomp : (Prod.snd ∘ fun k => (k, sumFor ps k)) = sumFor ps := rfl
  rw [hcomp]
  have hperm : ((sortByLe cellLe (groupKeys ps)).map (sumFor ps)).Perm
      ((groupKeys ps).map (sumFor ps)) := (sortByLe_perm _ _).map _
  rw [hperm.sum_eq, sum_over_keys ps _ (groupKeys_nodup ps)]
  have hfil : ps.filter (fun p => decide (p.1 ∈ groupKeys ps))
      = ps.filter (fun p => decide (p.1 ≠ Cell.na)) := by
    apply List.filter_congr
    intro p hp
    have hfst : p.1 ∈ ps.map Prod.fst := List.mem_map_of_mem _ hp
    apply decide_eq_decide.mpr
    rw [mem_groupKeys]
    exact ⟨fun h => h.2, fun h => ⟨hfst, h⟩⟩
  rw [hfil]

/-! ### mapExcept lemmas -/

theorem mapExcept_ok_length {α β : Type} (f : α → Except String β) :
    ∀ {l : List α} {bs : List β}, mapExcept f l = .ok bs → bs.length = l.length := by
  intro l
  induction l with
  | nil => intro bs h; cases h; rfl
  | cons x xs ih =>
    intro bs h
    unfold mapExcept at h
    cases hx : f x with
    | error e => rw [hx] at h; cases h
    | ok b =>
      rw [hx] at h
      cases hxs : mapExcept f xs with
      | error e => rw [hxs] at h; cases h
      | ok bs' =>
        rw [hxs] at h
        cases h
        simp [ih hxs]

theorem mem_of_mapExcept_ok {α β : Type} (f : α → Except String β) :
    ∀ {l : List α} {bs : List β} {b : β},
      mapExcept f l = .ok bs → b ∈ bs → ∃ a ∈ l, f a = .ok b := by
  intro l
  induction l with
  | nil => intro bs b h hb; cases h; cases hb
  | cons x xs ih =>
    intro bs b h hb
    unfold mapExcept at h
    cases hx : f x with
    | error e => rw [hx] at h; cases h
    | ok b0 =>
      rw [hx] at h
      cases hxs : mapExcept f xs with
      | error e => rw [hxs] at h; cases h
      | ok bs' =>
        rw [hxs] at h
        cases h
        rcases List.mem_cons.mp hb with rfl | hb'
        · exact ⟨x, by simp, hx⟩
        · rcases ih hxs hb' with ⟨a, ha, hfa⟩
          exact ⟨a, by simp [ha], hfa⟩

theorem mapExcept_ok_of_forall {α β : Type} (f : α → Except String β) :
    ∀ {l : List α}, (∀ a ∈ l, ∃ b, f a = .ok b) → ∃ bs, mapExcept f l = .ok bs := by
  intro l
  induction l with
  | nil => intro _; exact ⟨[], rfl⟩
  | cons x xs ih =>
    intro h
    rcases h x (by simp) with ⟨b, hb⟩
    rcases ih (fun a ha => h a (by simp [ha])) with ⟨bs, hbs⟩
    exact ⟨b :: bs, by unfold mapExcept; rw [hb, hbs]⟩

theorem mapExcept_error_of_mem {α β : Type} (f : α → Except String β) :
    ∀ {l : List α} {a : α} {e0 : String},
      a ∈ l → f a = .error e0 → ∃ e, mapExcept f l = .error e := by
  intro l
  induction l with
  | nil => intro a e0 ha; cases ha
  | cons x xs ih =>
    intro a e0 ha hfa
    unfold mapExcept
    cases hx : f x with
    | error e => exact ⟨e, rfl⟩
    | ok b =>
      rcases List.mem_cons.mp ha with rfl | ha'
      · rw [hfa] at hx; cases hx
      · rcases ih ha' hfa with ⟨e, he⟩
        rw [he]
        exact ⟨e, rfl⟩

/-! ### Column assignment lemmas -/

theorem lookupRow_cons (c' : String) (cs : List String) (x : Cell) (xs : List Cell) (c : String) :
    lookupRow (c' :: cs) (x :: xs) c = if c' = c then x else lookupRow cs xs c := rfl

theorem setRow_cons (c' : String) (cs : List String) (x : Cell) (xs : List Cell)
    (c : String) (v : Cell) :
    setRow (c' :: cs) (x :: xs) c v = if c' = c then v :: xs else x :: setRow cs xs c v := rfl

theorem setRow_length : ∀ (cols : List String) (r : List Cell) (c : String) (v : Cell),
    (setRow cols r c v).length = r.length
  | [], _, _, _ => rfl
  | _ :: _, [], _, _ => rfl
  | c' :: cs, x :: xs, c, v => by
    rw [setRow_cons]
    by_cases h : c' = c
    · rw [if_pos h]
      simp
    · rw [if_neg h]
      simp [setRow_length cs xs c v]

theorem lookupRow_setRow_self : ∀ (cols : List String) (r : List Cell) (c : String) (v : Cell),
    c ∈ cols → r.length = cols.length →
    lookupRow cols (setRow cols r c v) c = v
  | [], _, _, _ => by intro hc _; cases hc
  | _ :: _, [], _, _ => by intro _ hlen; cases hlen
  | c' :: cs, x :: xs, c, v => by
    intro hc hlen
    rw [setRow_cons]
    by_cases h : c' = c
    · rw [if_pos h, lookupRow_cons, if_pos h]
    · rw [if_neg h, lookupRow_cons, if_neg h]
      have hcs : c ∈ cs := by
        rcases List.mem_cons.mp hc with rfl | hcs
        · exact absurd rfl h
        · exact hcs
      exact lookupRow_setRow_self cs xs c v hcs (by simpa using hlen)

theorem lookupRow_setRow_ne : ∀ (cols : List String) (r : List Cell) (c c' : String) (v : Cell),
    c' ≠ c → lookupRow cols (setRow cols r c v) c' = lookupRow cols r c'
  | [], _, _, _, _ => by intro _; rfl
  | _ :: _, [], _, _, _ => by intro _; rfl
  | c0 :: cs, x :: xs, c, c', v => by
    intro hne
    rw [setRow_cons]
    by_cases h : c0 = c
    · rw [if_pos h]
      have h0 : c0 ≠ c' := fun hc => hne (hc.symm.trans h)
      rw [lookupRow_cons, if_neg h0, lookupRow_cons, if_neg h0]
    · rw [if_neg h]
      by_cases h0 : c0 = c'
      · rw [lookupRow_cons, if_pos h0, lookupRow_cons, if_pos h0]
      · rw [lookupRow_cons, if_neg h0, lookupRow_cons, if_neg h0]
        exact lookupRow_setRow_ne cs xs c c' v hne

theorem lookupRow_append_self : ∀ (cols : List String) (r : List Cell) (c : String) (v : Cell),
    c ∉ cols → r.length = cols.length →
    lookupRow (cols ++ [c]) (r ++ [v]) c = v
  | [], [], c, v => by
    intro _ _
    show lookupRow [c] [v] c = v
    rw [lookupRow_cons, if_pos rfl]
  | [], _ :: _, _, _ => by intro _ hlen; cases hlen
  | _ :: _, [], _, _ => by intro _ hlen; cases hlen
  | c' :: cs, x :: xs, c, v => by
    intro hc hlen
    have h : c' ≠ c := fun h => hc (by simp [h])
    show lookupRow (c' :: (cs ++ [c])) (x :: (xs ++ [v])) c = v
    rw [lookupRow_cons, if_neg h]
    exact lookupRow_append_self cs xs c v (fun hmem => hc (by simp [hmem]))
      (by simpa using hlen)

theorem lookupRow_append_ne : ∀ (cols : List String) (r : List Cell) (c c' : String) (v : Cell),
    c' ≠ c → r.length = cols.length →
    lookupRow (cols ++ [c]) (r ++ [v]) c' = lookupRow cols r c'
  | [], [], c, c', v => by
    intro hne _
    show lookupRow [c] [v] c' = lookupRow [] [] c'
    rw [lookupRow_cons, if_neg (fun h => hne h.symm)]
  | [], _ :: _, _, _, _ => by intro _ hlen; cases hlen
  | _ :: _, [], _, _, _ => by intro _ hlen; cases hlen
  | c0 :: cs, x :: xs, c, c', v => by
    intro hne hlen
    show lookupRow (c0 :: (cs ++ [c])) (x :: (xs ++ [v])) c'
      = lookupRow (c0 :: cs) (x :: xs) c'
    rw [lookupRow_cons, lookupRow_cons]
    by_cases h0 : c0 = c'
    · rw [if_pos h0, if_pos h0]
    · rw [if_neg h0, if_neg h0]
      exact lookupRow_append_ne cs xs c c' v hne (by simpa using hlen)

theorem Table.col_length (t : Table) (c : String) : (t.col c).length = t.rows.length := by
  simp [Table.col]

theorem Table.copy_eq (t : Table) : t.copy = t := rfl

theorem setCol_rows_length (t : Table) (c : String) (vs : List Cell)
    (hlen : vs.length = t.rows.length) :
    (t.setCol c vs).rows.length = t.rows.length := by
  unfold Table.setCol
  by_cases hc : c ∈ t.cols
  · simp [hc, hlen]
  · simp [hc, hlen]

theorem setCol_wf (t : Table) (c : String) (vs : List Cell) (hw : t.Wf) :
    (t.setCol c vs).Wf := by
  unfold Table.setCol
  by_cases hc : c ∈ t.cols
  · rw [if_pos hc]
    intro r hr
    rcases List.mem_map.mp hr with ⟨p, hp, rfl⟩
    rw [setRow_length]
    exact hw p.1 (List.of_mem_zip hp).1
  · rw [if_neg hc]
    intro r hr
    rcases List.mem_map.mp hr with ⟨p, hp, rfl⟩
    simp [hw p.1 (List.of_mem_zip hp).1]

theorem setCol_col_self (t : Table) (c : String) (vs : List Cell)
    (hw : t.Wf) (hlen : vs.length = t.rows.length) :
    (t.setCol c vs).col c = vs := by
  unfold Table.setCol
  by_cases hc : c ∈ t.cols
  · rw [if_pos hc]
    show ((t.rows.zip vs).map (fun p => setRow t.cols p.1 c p.2)).map
      (fun r => lookupRow t.cols r c) = vs
    rw [List.map_map]
    have hcong : ∀ p ∈ t.rows.zip vs,
        ((fun r => lookupRow t.cols r c) ∘ fun p => setRow t.cols p.1 c p.2) p = p.2 := by
      intro p hp
      exact lookupRow_setRow_self t.cols p.1 c p.2 hc (hw p.1 (List.of_mem_zip hp).1)
    rw [List.map_congr_left hcong]
    exact List.map_snd_zip t.rows vs (le_of_eq hlen)
  · rw [if_neg hc]
    show ((t.rows.zip vs).map (fun p => p.1 ++ [p.2])).map
      (fun r => lookupRow (t.cols ++ [c]) r c) = vs
    rw [List.map_map]
    have hcong : ∀ p ∈ t.rows.zip vs,
        ((fun r => lookupRow (t.cols ++ [c]) r c) ∘ fun p => p.1 ++ [p.2]) p = p.2 := by
      intro p hp
      exact lookupRow_append_self t.cols p.1 c p.2 hc (hw p.1 (List.of_mem_zip hp).1)
    rw [List.map_congr_left hcong]
    exact List.map_snd_zip t.rows vs (le_of_eq hlen)

theorem setCol_col_ne (t : Table) (c c' : String) (vs : List Cell)
    (hw : t.Wf) (hlen : vs.length = t.rows.length) (hne : c' ≠ c) :
    (t.setCol c vs).col c' = t.col c' := by
  unfold Table.setCol
  by_cases hc : c ∈ t.cols
  · rw [if_pos hc]
    show ((t.rows.zip vs).map (fun p => setRow t.cols p.1 c p.2)).map
      (fun r => lookupRow t.cols r c') = t.col c'
    rw [List.map_map]
    have hcong : ∀ p ∈ t.rows.zip vs,
        ((fun r => lookupRow t.cols r c') ∘ fun p => setRow t.cols p.1 c p.2) p
          = lookupRow t.cols p.1 c' := by
      intro p _
      exact lookupRow_setRow_ne t.cols p.1 c c' p.2 hne
    rw [List.map_congr_left hcong]
    have hsplit : ((t.rows.zip vs).map (fun p => lookupRow t.cols p.1 c'))
        = ((t.rows.zip vs).map Prod.fst).map (fun r => lookupRow t.cols r c') := by
      rw [List.map_map]
      rfl
    rw [hsplit, List.map_fst_zip t.rows vs (le_of_eq hlen.symm)]
    rfl
  · rw [if_neg hc]
    show ((t.rows.zip vs).map (fun p => p.1 ++ [p.2])).map
      (fun r => lookupRow (t.cols ++ [c]) r c') = t.col c'
    rw [List.map_map]
    have hcong : ∀ p ∈ t.rows.zip vs,
        ((fun r => lookupRow (t.cols ++ [c]) r c') ∘ fun p => p.1 ++ [p.2]) p
          = lookupRow t.cols p.1 c' := by
      intro p hp
      exact lookupRow_append_ne t.cols p.1 c c' p.2 hne (hw p.1 (List.of_mem_zip hp).1)
    rw [List.map_congr_left hcong]
    have hsplit : ((t.rows.zip vs).map (fun p => lookupRow t.cols p.1 c'))
        = ((t.rows.zip vs).map Prod.fst).map (fun r => lookupRow t.cols r c') := by
      rw [List.map_map]
      rfl
    rw [hsplit, List.map_fst_zip t.rows vs (le_of_eq hlen.symm)]
    rfl

/-! ### Pipeline frame lemmas -/

theorem sales_by_product_fst (t : Table) : (sales_by_product t).1 = t := by
  unfold sales_by_product
  split <;> rfl

theorem monthly_sales_trend_fst (t : Table) : (monthly_sales_trend t).1 = t := by
  unfold monthly_sales_trend
  split
  · split <;> rfl
  · rfl

theorem parsesToDate_spec (c : Cell) :
    parsesToDate c = true ↔ ∃ d, toDatetimeCell c = Except.ok (Cell.date d) := by
  unfold parsesToDate
  cases h : toDatetimeCell c with
  | error e => simp
  | ok b => cases b <;> simp

/-! ### Claim theorems -/

/-- C9: Neither aggregation variant modifies the loaded table: after
`sales_by_product` and after `monthly_sales_trend` (which re-types the
date column and adds a truncated month key on a copy), the caller's
table — rows, columns and values — is unchanged. -/
theorem aggregation_preserves_table (t : Table) :
    (sales_by_product t).1 = t ∧ (monthly_sales_trend t).1 = t :=
  ⟨sales_by_product_fst t, monthly_sales_trend_fst t⟩

/-- C5: For a table lacking `Product` or `Sales` the categorical
aggregation is a silent no-op producing no output and no chart
request, and likewise the temporal aggregation for a table lacking
`Date` or `Sales`; neither case is an error. -/
theorem missing_columns_silent_noop (t u : Table)
    (hp : "Product" ∉ t.cols ∨ "Sales" ∉ t.cols)
    (hd : "Date" ∉ u.cols ∨ "Sales" ∉ u.cols) :
    sales_by_product t = (t, none) ∧ monthly_sales_trend u = (u, .ok none) := by
  constructor
  · unfold sales_by_product
    rw [if_neg (fun h => hp.elim (fun h1 => h1 h.1) (fun h2 => h2 h.2))]
  · unfold monthly_sales_trend
    rw [if_neg (fun h => hd.elim (fun h1 => h1 h.1) (fun h2 => h2 h.2))]

theorem missing_columns_silent_noop_witness :
    ("Product" ∉ tOnlySales.cols ∨ "Sales" ∉ tOnlySales.cols) ∧
    ("Date" ∉ tPlain.cols ∨ "Sales" ∉ tPlain.cols) ∧
    sales_by_product tOnlySales = (tOnlySales, none) ∧
    monthly_sales_trend tPlain = (tPlain, .ok none) := by
  refine ⟨by decide, by decide, ?_, ?_⟩
  · exact (missing_columns_silent_noop tOnlySales tPlain (by decide) (by decide)).1
  · exact (missing_columns_silent_noop tOnlySales tPlain (by decide) (by decide)).2

/-- C10: Column recognition is exact, case-sensitive string matching:
a table carrying only a case variant of `Product` (resp. `Date`) is
treated exactly like one lacking the column, so the corresponding
variant is skipped. -/
theorem column_names_case_sensitive (t u : Table)
    (_hpl : "product" ∈ t.cols) (hP : "Product" ∉ t.cols)
    (_hdl : "date" ∈ u.cols) (hD : "Date" ∉ u.cols) :
    (sales_by_product t).2 = none ∧ (monthly_sales_trend u).2 = .ok none := by
  constructor
  · unfold sales_by_product
    rw [if_neg (fun h => hP h.1)]
  · unfold monthly_sales_trend
    rw [if_neg (fun h => hD h.1)]

theorem column_names_case_sensitive_witness :
    ("product" ∈ tLowerProduct.cols) ∧ ("Product" ∉ tLowerProduct.cols) ∧
    ("date" ∈ tLowerDate.cols) ∧ ("Date" ∉ tLowerDate.cols) ∧
    (sales_by_product tLowerProduct).2 = none ∧
    (monthly_sales_trend tLowerDate).2 = .ok none := by
  refine ⟨by decide, by decide, by decide, by decide, ?_, ?_⟩
  · exact (column_names_case_sensitive tLowerProduct tLowerDate
      (by decide) (by decide) (by decide) (by decide)).1
  · exact (column_names_case_sensitive tLowerProduct tLowerDate
      (by decide) (by decide) (by decide) (by decide)).2

/-- C7: Loading a path that does not exist terminates the run with a
diagnostic naming the missing path; the run yields no output file (the
whole run is the error, so no write happens and no downstream stage
runs). -/
theorem missing_file_terminates_run (fs : FS) (p : String)
    (h : List.lookup p fs = none) :
    run fs p = .error ("File not found: " ++ p) := by
  unfold run load_csv
  rw [h]

theorem missing_file_terminates_run_witness :
    List.lookup "missing.csv" ([] : FS) = none ∧
    run [] "missing.csv" = .error ("File not found: " ++ "missing.csv") :=
  ⟨rfl, missing_file_terminates_run [] "missing.csv" rfl⟩

/-- C8: The Writer's output path inserts the fixed suffix `_cleaned`
between the input's stem and extension, staying in the input's
directory: `out_path p = <dir><stem>_cleaned<extension>`. -/
theorem out_path_inserts_cleaned (p : String) :
    out_path p = pathDir p ++ pathStem p ++ "_cleaned" ++ pathSuffix p ∧
    out_path "data/sales.csv" = "data/sales_cleaned.csv" := by
  constructor
  · unfold out_path with_stem
    simp only [String.append_assoc]
  · decide

/-- C1: For every input table on which the pipeline completes, the
table handed to the Writer is exactly the loaded table, and the CSV
written is its header row followed by its data rows — no
transformation between load and write, no synthetic index column. -/
theorem writer_output_is_loaded_table (t w : Table) (csv : List (List String))
    (hrun : run_pipeline t = .ok (w, csv)) :
    w = t ∧ csv = t.cols :: t.rows.map (fun r => r.map cellStr) := by
  unfold run_pipeline at hrun
  rw [sales_by_product_fst] at hrun
  have hfst := monthly_sales_trend_fst t
  rcases hm : monthly_sales_trend t with ⟨t2, ex⟩
  rw [hm] at hrun hfst
  cases ex with
  | error e => cases hrun
  | ok r =>
    cases hrun
    subst hfst
    exact ⟨rfl, rfl⟩

theorem writer_output_is_loaded_table_witness :
    run_pipeline tPlain = .ok (tPlain, [["X"], ["A"]]) ∧
    tPlain = tPlain ∧
    [["X"], ["A"]] = tPlain.cols :: tPlain.rows.map (fun r => r.map cellStr) := by
  refine ⟨by decide, ?_, ?_⟩
  · exact (writer_output_is_loaded_table tPlain tPlain [["X"], ["A"]] (by decide)).1
  · exact (writer_output_is_loaded_table tPlain tPlain [["X"], ["A"]] (by decide)).2

/-- C6: If any cell of the `Date` column is a string that does not
parse as a calendar date, the temporal aggregation fails with a
parsing error that propagates uncaught: no aggregation result is
produced and the whole pipeline run terminates as that error, so no
output file is written. -/
theorem unparseable_date_aborts (t : Table)
    (hD : "Date" ∈ t.cols) (hS : "Sales" ∈ t.cols)
    (hbad : ∃ s, Cell.str s ∈ t.col "Date" ∧ parseDate s = none) :
    ∃ e, monthly_sales_trend t = (t, .error e) ∧ run_pipeline t = .error e := by
  rcases hbad with ⟨s, hmem, hparse⟩
  have hcell : toDatetimeCell (Cell.str s)
      = .error ("Unknown datetime string format: " ++ s) := by
    show (match parseDate s with
      | some d => Except.ok (Cell.date d)
      | none => Except.error ("Unknown datetime string format: " ++ s))
      = Except.error ("Unknown datetime string format: " ++ s)
    rw [hparse]
  have hmem' : Cell.str s ∈ t.copy.col "Date" := by
    rw [Table.copy_eq]
    exact hmem
  rcases mapExcept_error_of_mem toDatetimeCell hmem' hcell with ⟨e, he⟩
  have hmonth : monthly_sales_trend t = (t, .error e) := by
    unfold monthly_sales_trend
    rw [if_pos ⟨hD, hS⟩, he]
  refine ⟨e, hmonth, ?_⟩
  unfold run_pipeline
  rw [sales_by_product_fst, hmonth]

theorem unparseable_date_aborts_witness :
    ("Date" ∈ tBadDate.cols) ∧ ("Sales" ∈ tBadDate.cols) ∧
    (Cell.str "bad" ∈ tBadDate.col "Date" ∧ parseDate "bad" = none) ∧
    (∃ e, monthly_sales_trend tBadDate = (tBadDate, .error e) ∧
      run_pipeline tBadDate = .error e) := by
  refine ⟨by decide, by decide, ⟨by decide, by decide⟩, ?_⟩
  exact unparseable_date_aborts tBadDate (by decide) (by decide)
    ⟨"bad", by decide, by decide⟩

theorem valLe_le {x y : Cell × Int} (h : valLe x y = true) : x.2 ≤ y.2 :=
  of_decide_eq_true h

theorem valLe_false {x y : Cell × Int} (h : valLe x y = false) : y.2 < x.2 :=
  not_le.mp (of_decide_eq_false h)

/-- C2 (amended): when a table has `Product` and a numeric `Sales`
column, the sum of the per-product aggregated values equals the sum of
`Sales` over the rows whose `Product` is non-missing; rows whose
`Product` is missing are dropped by the grouping and their sales are
absent from the aggregate (so the total over the whole table is only
conserved when no `Product` value is missing). -/
theorem sales_by_product_conservation (t : Table)
    (hP : "Product" ∈ t.cols) (hS : "Sales" ∈ t.cols)
    (_hnum : ∀ c ∈ t.col "Sales", isNumCell c = true) :
    ∃ res, (sales_by_product t).2 = some res ∧
      (res.map Prod.snd).sum
        = ((((t.col "Product").zip (t.col "Sales")).filter
            (fun p => decide (p.1 ≠ Cell.na))).map (fun p => cellVal p.2)).sum := by
  unfold sales_by_product
  rw [if_pos ⟨hP, hS⟩]
  refine ⟨_, rfl, ?_⟩
  show (((sortByLe valLe
      (groupbySum ((t.col "Product").zip (t.col "Sales")))).reverse).map Prod.snd).sum = _
  have hrev : ∀ l : List (Cell × Int), (l.reverse.map Prod.snd).sum = (l.map Prod.snd).sum :=
    fun l => ((List.reverse_perm l).map Prod.snd).sum_eq
  rw [hrev, ((sortByLe_perm valLe _).map Prod.snd).sum_eq]
  exact sum_groupbySum _

/-- C2 counterexample: in a table whose single row has a missing
`Product` and `Sales = 10`, the aggregation output is empty (total 0)
while the `Sales` column sums to 10 — total conservation over the
whole table fails when a `Product` value is missing. -/
theorem sales_conservation_counterexample :
    "Product" ∈ tNaProduct.cols ∧ "Sales" ∈ tNaProduct.cols ∧
    (∀ c ∈ tNaProduct.col "Sales", isNumCell c = true) ∧
    (sales_by_product tNaProduct).2.map (fun res => (res.map Prod.snd).sum)
      ≠ some (((tNaProduct.col "Sales").map cellVal).sum) := by
  decide

theorem sales_by_product_conservation_witness :
    ("Product" ∈ tSales.cols) ∧ ("Sales" ∈ tSales.cols) ∧
    (∀ c ∈ tSales.col "Sales", isNumCell c = true) ∧
    (∃ res, (sales_by_product tSales).2 = some res ∧
      (res.map Prod.snd).sum
        = ((((tSales.col "Product").zip (tSales.col "Sales")).filter
            (fun p => decide (p.1 ≠ Cell.na))).map (fun p => cellVal p.2)).sum) := by
  refine ⟨by decide, by decide, by decide, ?_⟩
  exact sales_by_product_conservation tSales (by decide) (by decide) (by decide)

/-- C4 (amended): the categorical aggregation's entries are sorted by
summed value descending, but ties are broken by descending group key —
the grouping emits groups in ascending key order and the descending
value sort reverses tied runs — not by first-encountered group. -/
theorem sales_by_product_sorted (t : Table)
    (hP : "Product" ∈ t.cols) (hS : "Sales" ∈ t.cols) :
    ∃ res, (sales_by_product t).2 = some res ∧
      res.Pairwise (fun a b => b.2 < a.2 ∨
        (b.2 = a.2 ∧ cellLe b.1 a.1 = true ∧ b.1 ≠ a.1)) := by
  unfold sales_by_product
  rw [if_pos ⟨hP, hS⟩]
  refine ⟨_, rfl, ?_⟩
  show ((sortByLe valLe
      (groupbySum ((t.col "Product").zip (t.col "Sales")))).reverse).Pairwise _
  rw [List.pairwise_reverse]
  apply pairwise_sortByLe valLe _ (fun a b => cellLe a.1 b.1 = true ∧ a.1 ≠ b.1)
  · intro x y hQ hle
    rcases lt_or_eq_of_le (valLe_le hle) with h | h
    · exact Or.inl h
    · exact Or.inr ⟨h, hQ.1, hQ.2⟩
  · intro x y _ hle
    exact Or.inl (valLe_false hle)
  · intro x y z hQy hQz hle hyz
    rcases hyz with h | ⟨heq, -⟩
    · exact Or.inl (lt_of_le_of_lt (valLe_le hle) h)
    · rcases lt_or_eq_of_le (le_of_le_of_eq (valLe_le hle) heq) with h | h
      · exact Or.inl h
      · exact Or.inr ⟨h, hQz.1, hQz.2⟩
  · show ((sortByLe cellLe
        (groupKeys ((t.col "Product").zip (t.col "Sales")))).map
        (fun k => (k, sumFor ((t.col "Product").zip (t.col "Sales")) k))).Pairwise _
    rw [List.pairwise_map]
    have hs := sorted_sortByLe cellLe cellLe_total cellLe_trans
      (groupKeys ((t.col "Product").zip (t.col "Sales")))
    have hnd : (sortByLe cellLe
        (groupKeys ((t.col "Product").zip (t.col "Sales")))).Nodup :=
      ((sortByLe_perm cellLe _).nodup_iff).mpr (groupKeys_nodup _)
    exact hs.and hnd

/-- C4 counterexample: with tied sales for products first encountered
in the order B, A, C, the program outputs C, B, A — ties are not
broken by first-encountered group. -/
theorem sales_tie_order_counterexample :
    (sales_by_product tTiedSales).2
      = some [(Cell.str "C", 5), (Cell.str "B", 5), (Cell.str "A", 5)] ∧
    (sales_by_product tTiedSales).2
      ≠ some [(Cell.str "B", 5), (Cell.str "A", 5), (Cell.str "C", 5)] := by
  decide

theorem sales_by_product_sorted_witness :
    ("Product" ∈ tSales.cols) ∧ ("Sales" ∈ tSales.cols) ∧
    (∃ res, (sales_by_product tSales).2 = some res ∧
      res.Pairwise (fun a b => b.2 < a.2 ∨
        (b.2 = a.2 ∧ cellLe b.1 a.1 = true ∧ b.1 ≠ a.1))) := by
  refine ⟨by decide, by decide, ?_⟩
  exact sales_by_product_sorted tSales (by decide) (by decide)

/-- C3: For a well-formed table with a fully parseable `Date` column
and a numeric `Sales` column, the temporal aggregation succeeds; the
sum of the per-month values equals the `Sales` total over the whole
table; entries are in non-decreasing chronological (year, month)
order; and every group key is the year-month truncation of some row's
parsed date. -/
theorem monthly_trend_conservation (t : Table)
    (hw : t.Wf) (hD : "Date" ∈ t.cols) (hS : "Sales" ∈ t.cols)
    (hparse : ∀ c ∈ t.col "Date", parsesToDate c = true)
    (_hnum : ∀ c ∈ t.col "Sales", isNumCell c = true) :
    ∃ trend, (monthly_sales_trend t).2 = .ok (some trend) ∧
      (trend.map Prod.snd).sum = ((t.col "Sales").map cellVal).sum ∧
      trend.Pairwise (fun a b => ∀ y1 m1 y2 m2,
        a.1 = Cell.period y1 m1 → b.1 = Cell.period y2 m2 →
        (y1 < y2 ∨ (y1 = y2 ∧ m1 ≤ m2))) ∧
      (∀ p ∈ trend, ∃ c ∈ t.col "Date", ∃ d : Date,
        toDatetimeCell c = .ok (Cell.date d) ∧ p.1 = Cell.period d.year d.month) := by
  have hok : ∀ c ∈ t.col "Date", ∃ b, toDatetimeCell c = .ok b := by
    intro c hc
    rcases (parsesToDate_spec c).mp (hparse c hc) with ⟨d, hd⟩
    exact ⟨Cell.date d, hd⟩
  obtain ⟨dates, hmap⟩ := mapExcept_ok_of_forall toDatetimeCell hok
  have hlen : dates.length = t.rows.length :=
    (mapExcept_ok_length toDatetimeCell hmap).trans (Table.col_length t "Date")
  have hshape : ∀ dc ∈ dates, ∃ d : Date, dc = Cell.date d := by
    intro dc hdc
    rcases mem_of_mapExcept_ok toDatetimeCell hmap hdc with ⟨c, hc, hfc⟩
    rcases (parsesToDate_spec c).mp (hparse c hc) with ⟨d, hd⟩
    exact ⟨d, Except.ok.inj (hfc.symm.trans hd)⟩
  have hwf1 := setCol_wf t "Date" dates hw
  have hrows1 : (t.setCol "Date" dates).rows.length = t.rows.length :=
    setCol_rows_length t "Date" dates hlen
  have hcolD : (t.setCol "Date" dates).col "Date" = dates :=
    setCol_col_self t "Date" dates hw hlen
  have hmlen : (dates.map toPeriodCell).length = (t.setCol "Date" dates).rows.length := by
    rw [List.length_map, hlen, hrows1]
  have hcolM : ((t.setCol "Date" dates).setCol "Month" (dates.map toPeriodCell)).col "Month"
      = dates.map toPeriodCell :=
    setCol_col_self (t.setCol "Date" dates) "Month" (dates.map toPeriodCell) hwf1 hmlen
  have hcolS : ((t.setCol "Date" dates).setCol "Month" (dates.map toPeriodCell)).col "Sales"
      = t.col "Sales" := by
    rw [setCol_col_ne (t.setCol "Date" dates) "Month" "Sales" (dates.map toPeriodCell)
      hwf1 hmlen (by decide)]
    exact setCol_col_ne t "Date" "Sales" dates hw hlen (by decide)
  have hE : (monthly_sales_trend t).2 = .ok (some (groupbySum
      ((dates.map toPeriodCell).zip (t.col "Sales")))) := by
    unfold monthly_sales_trend
    rw [Table.copy_eq, if_pos ⟨hD, hS⟩, hmap]
    show Except.ok (some (groupbySum
      ((((t.setCol "Date" dates).setCol "Month"
          (((t.setCol "Date" dates).col "Date").map toPeriodCell)).col "Month").zip
        (((t.setCol "Date" dates).setCol "Month"
          (((t.setCol "Date" dates).col "Date").map toPeriodCell)).col "Sales")))) = _
    rw [hcolD, hcolM, hcolS]
  refine ⟨_, hE, ?_, ?_, ?_⟩
  · rw [sum_groupbySum]
    have hallkeys : ∀ p ∈ (dates.map toPeriodCell).zip (t.col "Sales"),
        (fun p : Cell × Cell => decide (p.1 ≠ Cell.na)) p = true := by
      intro p hp
      rcases List.mem_map.mp (List.of_mem_zip hp).1 with ⟨dc, hdc, hdceq⟩
      rcases hshape dc hdc with ⟨d, rfl⟩
      show decide (p.1 ≠ Cell.na) = true
      rw [← hdceq]
      simp [toPeriodCell]
    rw [List.filter_eq_self.mpr hallkeys]
    have hmap2 : ((dates.map toPeriodCell).zip (t.col "Sales")).map (fun p => cellVal p.2)
        = (((dates.map toPeriodCell).zip (t.col "Sales")).map Prod.snd).map cellVal := by
      rw [List.map_map]
      rfl
    have hle2 : (t.col "Sales").length ≤ (dates.map toPeriodCell).length := by
      rw [List.length_map, hlen, Table.col_length]
    rw [hmap2, List.map_snd_zip _ _ hle2]
  · show ((sortByLe cellLe
        (groupKeys ((dates.map toPeriodCell).zip (t.col "Sales")))).map
        (fun k => (k, sumFor ((dates.map toPeriodCell).zip (t.col "Sales")) k))).Pairwise _
    rw [List.pairwise_map]
    refine (sorted_sortByLe cellLe cellLe_total cellLe_trans _).imp ?_
    intro k1 k2 hle y1 m1 y2 m2 h1 h2
    have h1' : k1 = Cell.period y1 m1 := h1
    have h2' : k2 = Cell.period y2 m2 := h2
    rw [h1', h2'] at hle
    exact of_decide_eq_true hle
  · intro p hp
    have hp' : p ∈ (sortByLe cellLe
        (groupKeys ((dates.map toPeriodCell).zip (t.col "Sales")))).map
        (fun k => (k, sumFor ((dates.map toPeriodCell).zip (t.col "Sales")) k)) := hp
    rcases List.mem_map.mp hp' with ⟨k, hk, rfl⟩
    have hk2 : k ∈ groupKeys ((dates.map toPeriodCell).zip (t.col "Sales")) :=
      (sortByLe_perm cellLe _).mem_iff.mp hk
    obtain ⟨hkfst, hkna⟩ := mem_groupKeys.mp hk2
    rcases List.mem_map.mp hkfst with ⟨pp, hpp, hppfst⟩
    rcases List.mem_map.mp (List.of_mem_zip hpp).1 with ⟨dc, hdc, hdc2⟩
    rcases hshape dc hdc with ⟨d, rfl⟩
    rcases mem_of_mapExcept_ok toDatetimeCell hmap hdc with ⟨c, hc, hfc⟩
    refine ⟨c, hc, d, hfc, ?_⟩
    show k = Cell.period d.year d.month
    rw [← hppfst, ← hdc2]
    rfl

theorem monthly_trend_conservation_witness :
    tDates.Wf ∧ ("Date" ∈ tDates.cols) ∧ ("Sales" ∈ tDates.cols) ∧
    (∀ c ∈ tDates.col "Date", parsesToDate c = true) ∧
    (∀ c ∈ tDates.col "Sales", isNumCell c = true) ∧
    (∃ trend, (monthly_sales_trend tDates).2 = .ok (some trend) ∧
      (trend.map Prod.snd).sum = ((tDates.col "Sales").map cellVal).sum ∧
      trend.Pairwise (fun a b => ∀ y1 m1 y2 m2,
        a.1 = Cell.period y1 m1 → b.1 = Cell.period y2 m2 →
        (y1 < y2 ∨ (y1 = y2 ∧ m1 ≤ m2))) ∧
      (∀ p ∈ trend, ∃ c ∈ tDates.col "Date", ∃ d : Date,
        toDatetimeCell c = .ok (Cell.date d) ∧ p.1 = Cell.period d.year d.month)) := by
  refine ⟨by decide, by decide, by decide, by decide, by decide, ?_⟩
  exact monthly_trend_conservation tDates (by decide) (by decide) (by decide)
    (by decide) (by decide)
